import Mathlib

/-!
Verification of the silkenweb reactive-UI core, shallowly embedded in Lean.

The embedding covers:
* the per-cycle memoization cache (`crates/core/src/hooks/memo.rs`),
* the child-group reconciler (`crates/dom/src/element/child_groups.rs`),
* the mount and head-mount entry points
  (`packages/silkenweb/src/lib.rs`, `packages/silkenweb/src/document/wet.rs`
  and `packages/silkenweb/src/document/hydro.rs`),
* node identity (`crates/dom/src/element/dom.rs`, `DomNodeData::is_same`).

Modelling conventions:
* Rust `HashMap` values are modelled as association lists with
  replace-on-insert (`insertA`), which is observationally equal for
  lookup, removal and emptiness.
* A Rust panic (index out of bounds, failed `assert!`, explicit `panic!`)
  is modelled as `none`, or as `Except.error` carrying the panic message.
* DOM elements are identified by a numeric id; the live children of a
  parent element form a `List Nat` in document order.  The three parent
  mutation primitives used by `ChildGroups` (`append_child_now`,
  `insert_child_before`, `remove_child`) are modelled with standard DOM
  semantics: append at the end, insert directly before the anchor
  (append when the anchor is `None`), remove the given child.
-/

namespace Silkenweb

/-! ### Association-list maps (model of `std::collections::HashMap`) -/

variable {K V : Type} [DecidableEq K]

/-- Lookup of a key in an association list: value of the first matching pair. -/
def lookupA : List (K × V) → K → Option V
  | [], _ => none
  | (k0, v) :: rest, k => if k0 = k then some v else lookupA rest k

/-- Removal of a key from an association list (model of `HashMap::remove`). -/
def removeKey : List (K × V) → K → List (K × V)
  | [], _ => []
  | p :: rest, k => if p.1 = k then removeKey rest k else p :: removeKey rest k

/-- Replace-on-insert for association lists (model of `HashMap::insert`). -/
def insertA (l : List (K × V)) (k : K) (v : V) : List (K × V) :=
  (k, v) :: removeKey l k

/-! ### The memo cache (`crates/core/src/hooks/memo.rs`)

`MemoData` holds the two buffers `current_memoized` and `next_memoized`.
The source keys each buffer by a `(TypeId, TypeId)` pair and then by the
key value; we model a single key/value type pair, so each buffer is one
association list.  Emptiness of the outer map coincides with emptiness of
the single sub-map at every call boundary, because `cache` always inserts
into `next` after creating its sub-map. -/

structure MemoData (K V : Type) where
  current : List (K × V)
  next : List (K × V)
deriving DecidableEq

/-- Result of one `Memo::cache` call.  `computed` records whether
`value_fn` was invoked; `scheduled` records whether `queue_effect` was
called (the cycle-boundary swap was queued). -/
structure CacheResult (K V : Type) where
  value : V
  computed : Bool
  scheduled : Bool
  state : MemoData K V
deriving DecidableEq

namespace Memo

/-- `Memo::cache`: queue the boundary swap when `next` is empty, take the
entry out of `current` if present (otherwise invoke the compute function,
whose would-be result is the argument `v`), and store the resulting value
into `next`. -/
def cache (st : MemoData K V) (k : K) (v : V) : CacheResult K V :=
  let scheduled := st.next.isEmpty
  match lookupA st.current k with
  | some x => ⟨x, false, scheduled, ⟨removeKey st.current k, insertA st.next k x⟩⟩
  | none => ⟨v, true, scheduled, ⟨st.current, insertA st.next k v⟩⟩

/-- The queued cycle-boundary callback:
`memo.current_memoized = mem::take(&mut memo.next_memoized)`. -/
def cycleSwap (st : MemoData K V) : MemoData K V :=
  ⟨st.next, []⟩

/-- Run a sequence of `cache` calls, returning the final state and the
number of times the boundary swap was queued. -/
def runCalls : MemoData K V → List (K × V) → MemoData K V × Nat
  | st, [] => (st, 0)
  | st, (k, v) :: rest =>
    ((runCalls (cache st k v).state rest).1,
      (if (cache st k v).scheduled then 1 else 0) + (runCalls (cache st k v).state rest).2)

/-- One full update cycle: run the calls of the cycle, then run every
queued boundary callback (one `cycleSwap` per queueing). -/
def runCycle (st : MemoData K V) (reqs : List (K × V)) : MemoData K V :=
  cycleSwap^[(runCalls st reqs).2] (runCalls st reqs).1

end Memo

/-! ### DOM parent-mutation primitives

The narrow contract `ChildGroups` needs from its parent `StrictElement`:
append a child, insert a child directly before an optional anchor child
(append when the anchor is `None`), remove a child. -/

/-- A live DOM element handle, identified by a numeric id. -/
abbrev Elt := Nat

/-- `parent.append_child_now(child)`. -/
def appendChild (l : List Elt) (c : Elt) : List Elt := l ++ [c]

/-- `parent.remove_child(child)`: the child occurs at most once. -/
def removeChildDom (l : List Elt) (c : Elt) : List Elt := l.erase c

/-- Insert `c` directly before the first occurrence of the anchor `a`. -/
def insertBeforeElem : List Elt → Elt → Elt → List Elt
  | [], c, _ => [c]
  | x :: xs, c, a => if x = a then c :: x :: xs else x :: insertBeforeElem xs c a

/-- `parent.insert_child_before(child, next_child)`: DOM `insertBefore`,
which appends when the reference node is `None`. -/
def insertBefore (l : List Elt) (c : Elt) (anchor : Option Elt) : List Elt :=
  match anchor with
  | none => l ++ [c]
  | some a => insertBeforeElem l c a

/-! ### The child-group reconciler (`crates/dom/src/element/child_groups.rs`)

`parent` is the live children list of the parent element; `children` is
the slot vector `Vec<Option<StrictElement>>`.  Operations that index the
slot vector return `none` when the Rust code would panic on an
out-of-bounds index. -/

structure ChildGroups where
  parent : List Elt
  children : List (Option Elt)
  last_is_dynamic : Bool
  group_count : Nat
deriving DecidableEq

namespace ChildGroups

/-- `ChildGroups::new(parent)`. -/
def new (parent : List Elt) : ChildGroups :=
  ⟨parent, [], false, 0⟩

/-- `ChildGroups::is_single_group`. -/
def is_single_group (g : ChildGroups) : Bool :=
  g.group_count == 1

/-- `ChildGroups::new_group`: reserve the next slot, mark the last group
dynamic, return the new index. -/
def new_group (g : ChildGroups) : ChildGroups × Nat :=
  (⟨g.parent, g.children ++ [none], true, g.group_count + 1⟩, g.children.length)

/-- `ChildGroups::get_next_group_elem`: first occupied slot strictly
after `index`.  `children.split_at(index + 1)` panics when
`index + 1 > children.len()`, i.e. unless `index < children.len()`. -/
def get_next_group_elem (g : ChildGroups) (index : Nat) : Option (Option Elt) :=
  if index < g.children.length then
    some ((g.children.drop (index + 1)).filterMap id).head?
  else none

/-- `ChildGroups::append_new_group_sync`: push a slot holding `child`
when the last slot is still dynamic, bump the group count, append the
child to the live parent, and fix the last group. -/
def append_new_group_sync (g : ChildGroups) (child : Elt) : ChildGroups :=
  ⟨appendChild g.parent child,
    if g.last_is_dynamic then g.children ++ [some child] else g.children,
    false, g.group_count + 1⟩

/-- `ChildGroups::upsert_only_child`: replace the slot occupant, remove a
previous occupant from the parent, insert the child before the next
occupied slot, and return whether an occupant existed.
`self.children[index]` panics on an out-of-bounds index. -/
def upsert_only_child (g : ChildGroups) (index : Nat) (child : Elt) :
    Option (ChildGroups × Bool) :=
  match g.children.get? index with
  | none => none
  | some existing =>
    let children1 := g.children.set index (some child)
    let parent1 := match existing with
      | some old => removeChildDom g.parent old
      | none => g.parent
    let anchor := ((children1.drop (index + 1)).filterMap id).head?
    some (⟨insertBefore parent1 child anchor, children1, g.last_is_dynamic, g.group_count⟩,
      existing.isSome)

/-- `ChildGroups::insert_only_child`: as upsert, but
`assert!(!self.upsert_only_child(index, child))` panics when an occupant
existed. -/
def insert_only_child (g : ChildGroups) (index : Nat) (child : Elt) :
    Option ChildGroups :=
  match upsert_only_child g index child with
  | none => none
  | some (g1, existed) => if existed then none else some g1

/-- `ChildGroups::remove_child`: remove the slot occupant, if any, from
the live parent and clear the slot. -/
def remove_child (g : ChildGroups) (index : Nat) : Option ChildGroups :=
  match g.children.get? index with
  | none => none
  | some existing =>
    let parent1 := match existing with
      | some old => removeChildDom g.parent old
      | none => g.parent
    some ⟨parent1, g.children.set index none, g.last_is_dynamic, g.group_count⟩

/-- `ChildGroups::set_first_child`: bookkeeping only. -/
def set_first_child (g : ChildGroups) (index : Nat) (child : Elt) :
    Option ChildGroups :=
  if index < g.children.length then
    some ⟨g.parent, g.children.set index (some child), g.last_is_dynamic, g.group_count⟩
  else none

/-- `ChildGroups::clear_first_child`: bookkeeping only. -/
def clear_first_child (g : ChildGroups) (index : Nat) : Option ChildGroups :=
  if index < g.children.length then
    some ⟨g.parent, g.children.set index none, g.last_is_dynamic, g.group_count⟩
  else none

end ChildGroups

/-- A call against a `ChildGroups` value, for reasoning about arbitrary
call sequences. -/
inductive Op where
  | newGroup : Op
  | upsert : Nat → Elt → Op
  | removeChild : Nat → Op
deriving DecidableEq

/-- One call; `none` models a panic. -/
def step (g : ChildGroups) : Op → Option ChildGroups
  | .newGroup => some (g.new_group).1
  | .upsert i c => (g.upsert_only_child i c).map Prod.fst
  | .removeChild i => g.remove_child i

/-- Run a call sequence; `none` models a panic somewhere along it. -/
def runOps : ChildGroups → List Op → Option ChildGroups
  | g, [] => some g
  | g, op :: ops =>
    match step g op with
    | some g1 => runOps g1 ops
    | none => none

/-- Validity of one call: indices in range, and an upserted child is not
currently occupying a different slot (each child is a distinct live
node). -/
def okStep (g : ChildGroups) : Op → Bool
  | .newGroup => true
  | .upsert i c =>
    decide (i < g.children.length)
      && ((g.children.set i none).filterMap id).all (fun x => x ≠ c)
  | .removeChild i => decide (i < g.children.length)

/-- Validity of a call sequence. -/
def okRun : ChildGroups → List Op → Bool
  | _, [] => true
  | g, op :: ops =>
    okStep g op
      && (match step g op with
          | some g1 => okRun g1 ops
          | none => false)

/-! ### Mount points and head mounting
(`packages/silkenweb/src/lib.rs`, `document/wet.rs`, `document/hydro.rs`) -/

/-- The ambient document: elements addressable by id, and an optional
`<head>` element. -/
structure Doc where
  byId : List (String × Elt)
  headElem : Option Elt
deriving DecidableEq

/-- `mount_point(id)`: `get_element_by_id(id).unwrap_or_else(|| panic!(...))`.
The `Except.error` carries the panic message. -/
def mount_point (doc : Doc) (id : String) : Except String Elt :=
  match lookupA doc.byId id with
  | some e => Except.ok e
  | none => Except.error ("DOM node id = '" ++ id ++ "' must exist")

/-- The typed failure returned by head mounting when the document has no
head element. -/
inductive HeadNotFound where
  | headNotFound
deriving DecidableEq

/-- `insert_mounted_in_head` from `document/wet.rs`: insert, then
`assert!(existing.is_none(), ...)`. -/
def insert_mounted_in_head_wet (mounted : List (String × Elt)) (id : String) (v : Elt) :
    Except String (List (String × Elt)) :=
  let existing := lookupA mounted id
  if existing.isSome then
    Except.error ("Attempt to insert duplicate id (" ++ id ++ ") into head")
  else Except.ok (insertA mounted id v)

/-- `insert_mounted_in_head` from `document/hydro.rs` (textually the same
function, duplicated per DOM type in the source). -/
def insert_mounted_in_head_hydro (mounted : List (String × Elt)) (id : String) (v : Elt) :
    Except String (List (String × Elt)) :=
  let existing := lookupA mounted id
  if existing.isSome then
    Except.error ("Attempt to insert duplicate id (" ++ id ++ ") into head")
  else Except.ok (insertA mounted id v)

/-- `<Wet as Document>::mount_in_head`: `document::head().ok_or(HeadNotFound)?`
then the mounted-in-head registration.  The outer `Except String` is a
panic; the inner `Except HeadNotFound` is the typed return value.  `v`
stands for the child-vec handle registered under `id`. -/
def wetMountInHead (doc : Doc) (mounted : List (String × Elt)) (id : String) (v : Elt) :
    Except String (Except HeadNotFound (List (String × Elt))) :=
  match doc.headElem with
  | none => Except.ok (Except.error HeadNotFound.headNotFound)
  | some _ =>
    match insert_mounted_in_head_wet mounted id v with
    | Except.error msg => Except.error msg
    | Except.ok m => Except.ok (Except.ok m)

/-! ### Node identity (`crates/dom/src/element/dom.rs`)

`DomNodeData` wraps either a `DomElement(Rc<RefCell<...>>)` or a
`DomText(Rc<RefCell<...>>)`.  The `Rc` allocation is modelled by a
numeric id (`rc`); cloning a handle copies the pointer, and fresh
allocations take ids from a counter. -/

inductive DomNodeData where
  | element (rc : Nat) (tag : String)
  | text (rc : Nat) (content : String)
deriving DecidableEq

namespace DomNodeData

/-- `DomNodeData::is_same`: `Rc::ptr_eq` on matching variants, `false`
across variants. -/
def is_same : DomNodeData → DomNodeData → Bool
  | element r0 _, element r1 _ => r0 == r1
  | text r0 _, text r1 _ => r0 == r1
  | _, _ => false

/-- `Clone` on an `Rc`-backed handle copies the pointer. -/
def clone (n : DomNodeData) : DomNodeData := n

/-- The underlying representation pointed to by the handle. -/
def rcId : DomNodeData → Nat
  | element r _ => r
  | text r _ => r

def isElement : DomNodeData → Bool
  | element _ _ => true
  | text _ _ => false

/-- Structural (by-value) equality, ignoring the pointer identity. -/
def structurallyEqual : DomNodeData → DomNodeData → Bool
  | element _ t0, element _ t1 => t0 == t1
  | text _ s0, text _ s1 => s0 == s1
  | _, _ => false

end DomNodeData

/-- Allocation state for fresh `Rc`s: separately constructed nodes get
distinct allocation ids. -/
structure Allocator where
  nextId : Nat
deriving DecidableEq

/-- `DomElement::new(tag)` wrapped as a node handle. -/
def newElement (a : Allocator) (tag : String) : DomNodeData × Allocator :=
  (DomNodeData.element a.nextId tag, ⟨a.nextId + 1⟩)

/-- `DomText::new(content)` wrapped as a node handle. -/
def newText (a : Allocator) (content : String) : DomNodeData × Allocator :=
  (DomNodeData.text a.nextId content, ⟨a.nextId + 1⟩)

/-! ## Theorems -/

/-! ### Association-list lemmas -/

theorem lookupA_removeKey_self (l : List (K × V)) (k : K) :
    lookupA (removeKey l k) k = none := by
  induction l with
  | nil => rfl
  | cons p rest ih =>
    by_cases h : p.1 = k
    · simp [removeKey, h, ih]
    · simp [removeKey, lookupA, h, ih]

theorem lookupA_removeKey_ne (l : List (K × V)) (k0 k : K) (h : k0 ≠ k) :
    lookupA (removeKey l k0) k = lookupA l k := by
  induction l with
  | nil => rfl
  | cons p rest ih =>
    by_cases hp : p.1 = k0
    · have hpk : p.1 ≠ k := by rw [hp]; exact h
      simp [removeKey, lookupA, hp, hpk, ih, h]
    · simp [removeKey, lookupA, hp, ih]

theorem lookupA_insertA_self (l : List (K × V)) (k : K) (v : V) :
    lookupA (insertA l k v) k = some v := by
  simp [insertA, lookupA]

theorem lookupA_insertA_ne (l : List (K × V)) (k0 k : K) (v : V) (h : k0 ≠ k) :
    lookupA (insertA l k0 v) k = lookupA l k := by
  simp [insertA, lookupA, h]
  exact lookupA_removeKey_ne l k0 k h

theorem lookupA_removeKey_none (l : List (K × V)) (k0 k : K)
    (h : lookupA l k = none) : lookupA (removeKey l k0) k = none := by
  by_cases hk : k0 = k
  · subst hk; exact lookupA_removeKey_self l k0
  · rw [lookupA_removeKey_ne l k0 k hk]; exact h

/-! ### Memo-cache lemmas -/

namespace Memo

theorem cache_next_ne_nil (st : MemoData K V) (k : K) (v : V) :
    (cache st k v).state.next ≠ [] := by
  unfold cache
  cases lookupA st.current k <;> simp [insertA]

/-- After any `cache st k v` call, looking up `k` in `current` misses. -/
theorem cache_consumes_current (st : MemoData K V) (k : K) (v : V) :
    lookupA (cache st k v).state.current k = none := by
  unfold cache
  cases h : lookupA st.current k with
  | some x => simpa using lookupA_removeKey_self st.current k
  | none => simpa using h

theorem cache_miss (st : MemoData K V) (k : K) (v : V)
    (h : lookupA st.current k = none) :
    cache st k v = ⟨v, true, st.next.isEmpty, ⟨st.current, insertA st.next k v⟩⟩ := by
  unfold cache; rw [h]

theorem cache_hit (st : MemoData K V) (k : K) (v x : V)
    (h : lookupA st.current k = some x) :
    cache st k v
      = ⟨x, false, st.next.isEmpty, ⟨removeKey st.current k, insertA st.next k x⟩⟩ := by
  unfold cache; rw [h]

/-- If `next` is already non-empty, no call of the sequence queues the swap. -/
theorem runCalls_sched_zero (st : MemoData K V) (reqs : List (K × V))
    (h : st.next ≠ []) : (runCalls st reqs).2 = 0 := by
  induction reqs generalizing st with
  | nil => rfl
  | cons p rest ih =>
    have hs : (cache st p.1 p.2).scheduled = false := by
      unfold cache
      cases lookupA st.current p.1 <;> simpa [List.isEmpty_iff] using h
    have hn := cache_next_ne_nil st p.1 p.2
    simp [runCalls, hs, ih _ hn]

/-- Starting a cycle with empty `next`, a non-empty call sequence queues
the swap exactly once. -/
theorem runCalls_sched_one (st : MemoData K V) (reqs : List (K × V))
    (h0 : st.next = []) (h1 : reqs ≠ []) : (runCalls st reqs).2 = 1 := by
  match reqs with
  | [] => exact absurd rfl h1
  | p :: rest =>
    have hs : (cache st p.1 p.2).scheduled = true := by
      unfold cache
      cases lookupA st.current p.1 <;> simp [h0]
    have hn := cache_next_ne_nil st p.1 p.2
    simp [runCalls, hs, runCalls_sched_zero _ rest hn]

/-- A key requested by no call of the sequence keeps its `next` binding. -/
theorem runCalls_next_lookup (st : MemoData K V) (reqs : List (K × V)) (k : K)
    (h : ∀ p ∈ reqs, p.1 ≠ k) :
    lookupA (runCalls st reqs).1.next k = lookupA st.next k := by
  induction reqs generalizing st with
  | nil => rfl
  | cons p rest ih =>
    have hp : p.1 ≠ k := h p (List.mem_cons_self p rest)
    have hrest : ∀ q ∈ rest, q.1 ≠ k := fun q hq => h q (List.mem_cons_of_mem p hq)
    have hnext : lookupA (cache st p.1 p.2).state.next k = lookupA st.next k := by
      unfold cache
      cases lookupA st.current p.1 <;> simpa using lookupA_insertA_ne st.next p.1 k _ hp
    calc lookupA (runCalls st (p :: rest)).1.next k
        = lookupA (runCalls (cache st p.1 p.2).state rest).1.next k := rfl
      _ = lookupA (cache st p.1 p.2).state.next k := ih _ hrest
      _ = lookupA st.next k := hnext

/-- `current` only shrinks along a call sequence. -/
theorem runCalls_current_none (st : MemoData K V) (reqs : List (K × V)) (k : K)
    (h : lookupA st.current k = none) :
    lookupA (runCalls st reqs).1.current k = none := by
  induction reqs generalizing st with
  | nil => exact h
  | cons p rest ih =>
    have hcur : lookupA (cache st p.1 p.2).state.current k = none := by
      unfold cache
      cases lookupA st.current p.1 with
      | some x => simpa using lookupA_removeKey_none st.current p.1 k h
      | none => simpa using h
    exact ih _ hcur

theorem runCycle_nil (st : MemoData K V) : runCycle st [] = st := rfl

/-- From a cycle-start state (empty `next`), a cycle with at least one
call ends with exactly one swap: `current` becomes what the calls put
into `next`, and `next` is left empty. -/
theorem runCycle_of_next_nil (st : MemoData K V) (reqs : List (K × V))
    (h0 : st.next = []) (h1 : reqs ≠ []) :
    runCycle st reqs = ⟨(runCalls st reqs).1.next, []⟩ := by
  unfold runCycle
  rw [runCalls_sched_one st reqs h0 h1]
  rfl

end Memo

/-! ### Claims about the memo cache -/

/-- Claim C1 is false on the code: calling `cache` twice with the same
key within one update cycle (no boundary swap in between) invokes the
compute function on BOTH calls when the key was not cached from the
previous cycle — the first call consumes any `current` entry and lookups
never consult `next` — and the second call returns its own freshly
computed value (20), not the value returned by the first call (10). -/
theorem memo_reuse_within_cycle_counterexample :
    ((Memo.cache (⟨[], []⟩ : MemoData Nat Nat) 0 10).computed = true) ∧
    ((Memo.cache (Memo.cache (⟨[], []⟩ : MemoData Nat Nat) 0 10).state 0 20).computed = true) ∧
    ((Memo.cache (Memo.cache (⟨[], []⟩ : MemoData Nat Nat) 0 10).state 0 20).value = 20) ∧
    ¬((Memo.cache (Memo.cache (⟨[], []⟩ : MemoData Nat Nat) 0 10).state 0 20).value
        = (Memo.cache (⟨[], []⟩ : MemoData Nat Nat) 0 10).value) := by
  decide

/-- Claim C1 (amended): the second `cache` call with the same key within
one cycle always invokes its compute function and returns that fresh
value; the first call invokes its compute function exactly when the key
was not in `current` (so across the two calls the compute functions run
once if the key was cached from the previous cycle, twice otherwise). -/
theorem memo_second_call_recomputes (st : MemoData K V) (k : K) (v1 v2 : V) :
    (Memo.cache (Memo.cache st k v1).state k v2).computed = true ∧
    (Memo.cache (Memo.cache st k v1).state k v2).value = v2 ∧
    (Memo.cache st k v1).computed = !(lookupA st.current k).isSome := by
  have h := Memo.cache_consumes_current st k v1
  have h2 := Memo.cache_miss (Memo.cache st k v1).state k v2 h
  refine ⟨by rw [h2], by rw [h2], ?_⟩
  cases hx : lookupA st.current k with
  | some x => rw [Memo.cache_hit st k v1 x hx]; simp
  | none => rw [Memo.cache_miss st k v1 hx]; simp

/-- Claim C5: within one cycle the boundary callback is queued exactly
once — by the first `cache` call, detected by `next` being empty — and
never a second time; when it runs it moves `next` into `current` and
leaves `next` empty for the following cycle. -/
theorem memo_swap_queued_once (st : MemoData K V) (k : K) (v : V)
    (rest : List (K × V)) (h : st.next = []) :
    (Memo.cache st k v).scheduled = true ∧
    (Memo.runCalls st ((k, v) :: rest)).2 = 1 ∧
    Memo.runCycle st ((k, v) :: rest)
      = ⟨(Memo.runCalls st ((k, v) :: rest)).1.next, []⟩ := by
  refine ⟨?_, Memo.runCalls_sched_one st _ h (by simp),
    Memo.runCycle_of_next_nil st _ h (by simp)⟩
  unfold Memo.cache
  cases lookupA st.current k <;> simp [h]

theorem memo_swap_queued_once_witness :
    (Memo.cache (⟨[], []⟩ : MemoData Nat Nat) 1 2).scheduled = true ∧
    (Memo.runCalls (⟨[], []⟩ : MemoData Nat Nat) [(1, 2), (3, 4)]).2 = 1 ∧
    Memo.runCycle (⟨[], []⟩ : MemoData Nat Nat) [(1, 2), (3, 4)]
      = ⟨(Memo.runCalls (⟨[], []⟩ : MemoData Nat Nat) [(1, 2), (3, 4)]).1.next, []⟩ :=
  memo_swap_queued_once ⟨[], []⟩ 1 2 [(3, 4)] rfl

/-- Claim C6 is false on the code: key 5 is requested during no call of
cycle N (which has no calls at all), yet at the start of cycle N+2 it is
present in the cache, because it was requested during cycle N+1 and so
was carried across the N+1 boundary. -/
theorem memo_non_carryover_counterexample :
    (¬ 5 ∈ ([] : List (Nat × Nat)).map Prod.fst) ∧
    lookupA (Memo.runCycle (Memo.runCycle (⟨[], []⟩ : MemoData Nat Nat) []) [(5, 99)]).current 5
      = some 99 := by
  decide

/-- Claim C6 (amended): if at least one `cache` call occurs during cycle
N (so the boundary swap actually runs) and key `k` is requested during
neither cycle N nor cycle N+1, then `k` is absent from the whole cache
(both buffers) at the start of cycle N+2. -/
theorem memo_non_carryover_amended (st : MemoData K V)
    (reqsN reqsN1 : List (K × V)) (k : K)
    (h0 : st.next = []) (h1 : reqsN ≠ [])
    (h2 : ∀ p ∈ reqsN, p.1 ≠ k) (h3 : ∀ p ∈ reqsN1, p.1 ≠ k) :
    lookupA (Memo.runCycle (Memo.runCycle st reqsN) reqsN1).current k = none ∧
    lookupA (Memo.runCycle (Memo.runCycle st reqsN) reqsN1).next k = none := by
  have hA : Memo.runCycle st reqsN = ⟨(Memo.runCalls st reqsN).1.next, []⟩ :=
    Memo.runCycle_of_next_nil st reqsN h0 h1
  have hAcur : lookupA (Memo.runCycle st reqsN).current k = none := by
    rw [hA]
    show lookupA (Memo.runCalls st reqsN).1.next k = none
    rw [Memo.runCalls_next_lookup st reqsN k h2, h0]
    rfl
  have hAnext : (Memo.runCycle st reqsN).next = [] := by rw [hA]
  cases reqsN1 with
  | nil =>
    rw [Memo.runCycle_nil]
    exact ⟨hAcur, by rw [hAnext]; rfl⟩
  | cons p rest =>
    have hB := Memo.runCycle_of_next_nil (Memo.runCycle st reqsN) (p :: rest)
      hAnext (by simp)
    rw [hB]
    refine ⟨?_, rfl⟩
    show lookupA (Memo.runCalls (Memo.runCycle st reqsN) (p :: rest)).1.next k = none
    rw [Memo.runCalls_next_lookup _ _ k h3, hAnext]
    rfl

/-! ### List lemmas for the child-group reconciler -/

theorem filterMap_id_decomp (l : List (Option Elt)) (i : Nat) (o : Option Elt)
    (h : l.get? i = some o) :
    l.filterMap id
      = (l.take i).filterMap id ++ (o.toList ++ (l.drop (i + 1)).filterMap id) := by
  induction l generalizing i with
  | nil => simp [List.get?] at h
  | cons a t ih =>
    cases i with
    | zero =>
      have ha : a = o := by simpa using h
      subst ha
      cases a <;> simp [List.filterMap_cons]
    | succ j =>
      have h2 : t.get? j = some o := by simpa using h
      have hj := ih j h2
      cases a <;> simp [List.filterMap_cons, hj]

theorem filterMap_id_set_some (l : List (Option Elt)) (i : Nat) (c : Elt)
    (h : i < l.length) :
    (l.set i (some c)).filterMap id
      = (l.take i).filterMap id ++ c :: (l.drop (i + 1)).filterMap id := by
  rw [List.set_eq_take_cons_drop _ h, List.filterMap_append]
  simp [List.filterMap_cons]

theorem filterMap_id_set_none (l : List (Option Elt)) (i : Nat) (h : i < l.length) :
    (l.set i none).filterMap id
      = (l.take i).filterMap id ++ (l.drop (i + 1)).filterMap id := by
  rw [List.set_eq_take_cons_drop _ h, List.filterMap_append]
  simp [List.filterMap_cons]

theorem get?_set_self {α : Type} (l : List α) (i : Nat) (a : α) (h : i < l.length) :
    (l.set i a).get? i = some a := by
  induction l generalizing i with
  | nil => simp at h
  | cons b t ih =>
    cases i with
    | zero => rfl
    | succ j => simpa [List.set, List.get?] using ih j (by simpa using h)

theorem drop_set_of_lt (l : List (Option Elt)) (i : Nat) (o : Option Elt)
    (h : i < l.length) :
    (l.set i o).drop (i + 1) = l.drop (i + 1) := by
  rw [List.set_eq_take_cons_drop _ h,
    show l.take i ++ o :: l.drop (i + 1) = (l.take i ++ [o]) ++ l.drop (i + 1) by simp]
  exact List.drop_left' (by simp [Nat.min_eq_left (Nat.le_of_lt h)])

theorem insertBeforeElem_append (P Q : List Elt) (c a : Elt) (ha : a ∉ P) :
    insertBeforeElem (P ++ a :: Q) c a = P ++ c :: a :: Q := by
  induction P with
  | nil => simp [insertBeforeElem]
  | cons x P ih =>
    have hx : x ≠ a := by
      intro hxa; exact ha (hxa ▸ List.mem_cons_self x P)
    have ha2 : a ∉ P := fun hm => ha (List.mem_cons_of_mem x hm)
    simp [insertBeforeElem, hx, ih ha2]

theorem insertBefore_head (P Q : List Elt) (c : Elt)
    (h : ∀ a, Q.head? = some a → a ∉ P) :
    insertBefore (P ++ Q) c Q.head? = P ++ c :: Q := by
  cases Q with
  | nil => simp [insertBefore]
  | cons a Q => exact insertBeforeElem_append P Q c a (h a rfl)

/-! ### Characterization of the child-group operations -/

/-- Effect of `upsert_only_child` on a state satisfying the slot-order
invariant: the previous occupant (if any) leaves the parent, and the new
child lands between the occupants of the lower slots and the occupants of
the higher slots. -/
theorem upsert_only_child_eq (g : ChildGroups) (i : Nat) (c : Elt)
    (hp : g.parent = g.children.filterMap id)
    (hnd : (g.children.filterMap id).Nodup)
    (hi : i < g.children.length) :
    ChildGroups.upsert_only_child g i c = some
      (⟨(g.children.take i).filterMap id ++ c :: (g.children.drop (i + 1)).filterMap id,
        g.children.set i (some c), g.last_is_dynamic, g.group_count⟩,
        ((g.children.get? i).join).isSome) := by
  obtain ⟨o, ho⟩ : ∃ o, g.children.get? i = some o := ⟨_, List.get?_eq_get hi⟩
  have hdec := filterMap_id_decomp g.children i o ho
  have hdrop : ((g.children.set i (some c)).drop (i + 1)).filterMap id
      = (g.children.drop (i + 1)).filterMap id := by
    rw [drop_set_of_lt _ _ _ hi]
  have hdisj : List.Disjoint ((g.children.take i).filterMap id)
      (o.toList ++ (g.children.drop (i + 1)).filterMap id) :=
    (List.nodup_append.mp (hdec ▸ hnd)).2.2
  have hanchor : ∀ a, ((g.children.drop (i + 1)).filterMap id).head? = some a →
      a ∉ (g.children.take i).filterMap id := by
    intro a hhead hmem
    have hain : a ∈ (g.children.drop (i + 1)).filterMap id :=
      List.mem_of_mem_head? (by rw [hhead]; rfl)
    exact hdisj hmem (List.mem_append_right _ hain)
  have hins := insertBefore_head ((g.children.take i).filterMap id)
    ((g.children.drop (i + 1)).filterMap id) c hanchor
  cases o with
  | none =>
    have hparent : g.parent
        = (g.children.take i).filterMap id ++ (g.children.drop (i + 1)).filterMap id := by
      rw [hp, hdec]; simp
    simp only [ChildGroups.upsert_only_child, ho]
    rw [Option.some_inj, Prod.mk.injEq]
    refine ⟨?_, by simp⟩
    simp only [ChildGroups.mk.injEq, and_true]
    rw [hdrop, hparent]
    exact hins
  | some old =>
    have hnotin : old ∉ (g.children.take i).filterMap id := fun hmem =>
      hdisj hmem (by simp)
    have hparent : removeChildDom g.parent old
        = (g.children.take i).filterMap id ++ (g.children.drop (i + 1)).filterMap id := by
      rw [removeChildDom, hp, hdec]
      simp only [Option.toList]
      rw [show (g.children.take i).filterMap id
            ++ ([old] ++ (g.children.drop (i + 1)).filterMap id)
          = (g.children.take i).filterMap id
            ++ old :: (g.children.drop (i + 1)).filterMap id by simp]
      rw [List.erase_append_right _ hnotin, List.erase_cons_head]
    simp only [ChildGroups.upsert_only_child, ho]
    rw [Option.some_inj, Prod.mk.injEq]
    refine ⟨?_, by simp⟩
    simp only [ChildGroups.mk.injEq, and_true]
    rw [hdrop, hparent]
    exact hins

/-- Effect of `remove_child` on a state satisfying the slot-order
invariant: the occupant (if any) leaves the parent and the slot is
cleared. -/
theorem remove_child_eq (g : ChildGroups) (i : Nat)
    (hp : g.parent = g.children.filterMap id)
    (hnd : (g.children.filterMap id).Nodup)
    (hi : i < g.children.length) :
    ChildGroups.remove_child g i = some
      ⟨(g.children.take i).filterMap id ++ (g.children.drop (i + 1)).filterMap id,
        g.children.set i none, g.last_is_dynamic, g.group_count⟩ := by
  obtain ⟨o, ho⟩ : ∃ o, g.children.get? i = some o := ⟨_, List.get?_eq_get hi⟩
  have hdec := filterMap_id_decomp g.children i o ho
  have hdisj : List.Disjoint ((g.children.take i).filterMap id)
      (o.toList ++ (g.children.drop (i + 1)).filterMap id) :=
    (List.nodup_append.mp (hdec ▸ hnd)).2.2
  cases o with
  | none =>
    have hparent : g.parent
        = (g.children.take i).filterMap id ++ (g.children.drop (i + 1)).filterMap id := by
      rw [hp, hdec]; simp
    simp only [ChildGroups.remove_child, ho]
    rw [Option.some_inj]
    simp only [ChildGroups.mk.injEq, and_true]
    exact hparent
  | some old =>
    have hnotin : old ∉ (g.children.take i).filterMap id := fun hmem =>
      hdisj hmem (by simp)
    have hparent : removeChildDom g.parent old
        = (g.children.take i).filterMap id ++ (g.children.drop (i + 1)).filterMap id := by
      rw [removeChildDom, hp, hdec]
      simp only [Option.toList]
      rw [show (g.children.take i).filterMap id
            ++ ([old] ++ (g.children.drop (i + 1)).filterMap id)
          = (g.children.take i).filterMap id
            ++ old :: (g.children.drop (i + 1)).filterMap id by simp]
      rw [List.erase_append_right _ hnotin, List.erase_cons_head]
    simp only [ChildGroups.remove_child, ho]
    rw [Option.some_inj]
    simp only [ChildGroups.mk.injEq, and_true]
    exact hparent

/-- Clearing a slot preserves distinctness of the occupants. -/
theorem nodup_filterMap_set_none (l : List (Option Elt)) (i : Nat)
    (hnd : (l.filterMap id).Nodup) (hi : i < l.length) :
    ((l.set i none).filterMap id).Nodup := by
  obtain ⟨o, ho⟩ : ∃ o, l.get? i = some o := ⟨_, List.get?_eq_get hi⟩
  have hdec := filterMap_id_decomp l i o ho
  rw [filterMap_id_set_none _ _ hi]
  refine List.Nodup.sublist ?_ (hdec ▸ hnd)
  exact List.Sublist.append_left (List.sublist_append_right _ _) _

/-- One valid call preserves the slot-order invariant. -/
theorem step_preserves (g g1 : ChildGroups) (op : Op)
    (hp : g.parent = g.children.filterMap id)
    (hnd : (g.children.filterMap id).Nodup)
    (hok : okStep g op = true)
    (hstep : step g op = some g1) :
    g1.parent = g1.children.filterMap id ∧ (g1.children.filterMap id).Nodup := by
  cases op with
  | newGroup =>
    have hg1 : g1 = (g.new_group).1 := by
      simpa [step] using hstep.symm
    subst hg1
    constructor
    · simpa [ChildGroups.new_group, List.filterMap_append] using hp
    · simpa [ChildGroups.new_group, List.filterMap_append] using hnd
  | upsert i c =>
    simp only [okStep, Bool.and_eq_true, List.all_eq_true, decide_eq_true_eq] at hok
    obtain ⟨hi, hfresh⟩ := hok
    rw [step, upsert_only_child_eq g i c hp hnd hi] at hstep
    have hg1 : g1 = ⟨(g.children.take i).filterMap id
        ++ c :: (g.children.drop (i + 1)).filterMap id,
        g.children.set i (some c), g.last_is_dynamic, g.group_count⟩ := by
      simpa using hstep.symm
    subst hg1
    have hset := filterMap_id_set_some g.children i c hi
    constructor
    · exact hset.symm
    · rw [hset]
      rw [List.nodup_middle, List.nodup_cons]
      constructor
      · rw [← filterMap_id_set_none _ _ hi]
        intro hmem
        exact hfresh c hmem rfl
      · rw [← filterMap_id_set_none _ _ hi]
        exact nodup_filterMap_set_none g.children i hnd hi
  | removeChild i =>
    have hi : i < g.children.length := by
      simpa [okStep] using hok
    rw [step, remove_child_eq g i hp hnd hi] at hstep
    have hg1 : g1 = ⟨(g.children.take i).filterMap id
        ++ (g.children.drop (i + 1)).filterMap id,
        g.children.set i none, g.last_is_dynamic, g.group_count⟩ := by
      simpa using hstep.symm
    subst hg1
    have hset := filterMap_id_set_none g.children i hi
    constructor
    · exact hset.symm
    · rw [hset]
      rw [← filterMap_id_set_none _ _ hi]
      exact nodup_filterMap_set_none g.children i hnd hi

/-- Any valid call sequence preserves the slot-order invariant. -/
theorem runOps_preserves (ops : List Op) (g g1 : ChildGroups)
    (hp : g.parent = g.children.filterMap id)
    (hnd : (g.children.filterMap id).Nodup)
    (hok : okRun g ops = true)
    (hrun : runOps g ops = some g1) :
    g1.parent = g1.children.filterMap id ∧ (g1.children.filterMap id).Nodup := by
  induction ops generalizing g with
  | nil =>
    have : g = g1 := by simpa [runOps] using hrun
    subst this
    exact ⟨hp, hnd⟩
  | cons op ops ih =>
    cases hstep : step g op with
    | none =>
      rw [runOps, hstep] at hrun
      exact absurd hrun (by simp)
    | some g2 =>
      rw [runOps, hstep] at hrun
      rw [okRun, hstep, Bool.and_eq_true] at hok
      obtain ⟨hok1, hok2⟩ := hok
      obtain ⟨hp2, hnd2⟩ := step_preserves g g2 op hp hnd hok1 hstep
      exact ih g2 hp2 hnd2 hok2 hrun

/-! ### Claims about the child-group reconciler -/

/-- Claim C2: along any valid sequence of `new_group`, `upsert_only_child`
and `remove_child` calls on a fresh `ChildGroups`, the live document order
of the occupied slots is exactly ascending slot-index order (the parent
children list equals the occupants in slot order); in particular, after
`new_group` three times, `upsert_only_child 1 X` then
`upsert_only_child 0 Y`, the parent holds `[Y, X]`. -/
theorem childgroups_slot_order (ops : List Op) (g1 : ChildGroups)
    (hok : okRun (ChildGroups.new []) ops = true)
    (hrun : runOps (ChildGroups.new []) ops = some g1) :
    g1.parent = g1.children.filterMap id ∧
    runOps (ChildGroups.new [])
        [Op.newGroup, Op.newGroup, Op.newGroup, Op.upsert 1 10, Op.upsert 0 20]
      = some ⟨[20, 10], [some 20, some 10, none], true, 3⟩ :=
  ⟨(runOps_preserves ops (ChildGroups.new []) g1 rfl (by decide) hok hrun).1, by decide⟩

theorem childgroups_slot_order_witness :
    (⟨[20, 10], [some 20, some 10, none], true, 3⟩ : ChildGroups).parent
      = (⟨[20, 10], [some 20, some 10, none], true, 3⟩ :
          ChildGroups).children.filterMap id ∧
    runOps (ChildGroups.new [])
        [Op.newGroup, Op.newGroup, Op.newGroup, Op.upsert 1 10, Op.upsert 0 20]
      = some ⟨[20, 10], [some 20, some 10, none], true, 3⟩ :=
  childgroups_slot_order
    [Op.newGroup, Op.newGroup, Op.newGroup, Op.upsert 1 10, Op.upsert 0 20]
    ⟨[20, 10], [some 20, some 10, none], true, 3⟩ (by decide) (by decide)

/-- Claim C3: for an in-range index and a fresh child, `upsert_only_child`
returns whether the slot was occupied; a previous occupant is no longer a
child of the parent; the slot afterwards holds exactly the new child; the
child is inserted directly before the occupant of the nearest occupied
slot after the index, or appended when every later slot is empty. -/
theorem upsert_only_child_spec (g : ChildGroups) (i : Nat) (c : Elt)
    (hp : g.parent = g.children.filterMap id)
    (hnd : (g.children.filterMap id).Nodup)
    (hi : i < g.children.length)
    (hc : c ∉ g.children.filterMap id) :
    ChildGroups.upsert_only_child g i c = some
      (⟨(g.children.take i).filterMap id ++ c :: (g.children.drop (i + 1)).filterMap id,
        g.children.set i (some c), g.last_is_dynamic, g.group_count⟩,
        ((g.children.get? i).join).isSome) ∧
    (∀ old, g.children.get? i = some (some old) →
      old ∉ ((g.children.take i).filterMap id
        ++ c :: (g.children.drop (i + 1)).filterMap id)) ∧
    (g.children.set i (some c)).get? i = some (some c) ∧
    (∀ a, ChildGroups.get_next_group_elem g i = some (some a) →
      ∃ p q, (g.children.take i).filterMap id
          ++ c :: (g.children.drop (i + 1)).filterMap id = p ++ c :: a :: q) ∧
    (ChildGroups.get_next_group_elem g i = some none →
      (g.children.take i).filterMap id ++ c :: (g.children.drop (i + 1)).filterMap id
        = (g.children.take i).filterMap id ++ [c]) := by
  refine ⟨upsert_only_child_eq g i c hp hnd hi, ?_, get?_set_self _ _ _ hi, ?_, ?_⟩
  · intro old hold hmem
    have hdec := filterMap_id_decomp g.children i (some old) hold
    have hnd2 := hdec ▸ hnd
    have hdisj := (List.nodup_append.mp hnd2).2.2
    have hnotinT : old ∉ (g.children.take i).filterMap id := fun hm =>
      hdisj hm (by simp)
    have hnotinD : old ∉ (g.children.drop (i + 1)).filterMap id := by
      have hmid : (old :: (g.children.drop (i + 1)).filterMap id).Nodup :=
        (List.nodup_append.mp hnd2).2.1
      exact (List.nodup_cons.mp hmid).1
    have holdmem : old ∈ g.children.filterMap id := by
      rw [hdec]; simp
    have hoc : old ≠ c := fun hoc => hc (hoc ▸ holdmem)
    rcases List.mem_append.mp hmem with hm | hm
    · exact hnotinT hm
    · rcases List.mem_cons.mp hm with hm2 | hm2
      · exact hoc hm2
      · exact hnotinD hm2
  · intro a ha
    have hhead : ((g.children.drop (i + 1)).filterMap id).head? = some a := by
      simpa [ChildGroups.get_next_group_elem, hi] using ha
    obtain ⟨ys, hys⟩ := List.head?_eq_some_iff.mp hhead
    exact ⟨(g.children.take i).filterMap id, ys, by rw [hys]⟩
  · intro ha
    have hhead : ((g.children.drop (i + 1)).filterMap id).head? = none := by
      simpa [ChildGroups.get_next_group_elem, hi] using ha
    rw [List.head?_eq_none_iff.mp hhead]

theorem upsert_only_child_spec_witness :
    ChildGroups.upsert_only_child ⟨[3, 4], [some 3, none, some 4], true, 3⟩ 1 7
      = some (⟨[3, 7, 4], [some 3, some 7, some 4], true, 3⟩, false) := by
  have h := (upsert_only_child_spec ⟨[3, 4], [some 3, none, some 4], true, 3⟩ 1 7
    (by decide) (by decide) (by decide) (by decide)).1
  simpa using h

/-- Claim C4 is false on the code as to where the child is recorded: after
`new_group` (so the last slot, index 0, is dynamic),
`append_new_group_sync 5` does NOT record child 5 as the occupant of that
previous slot; it pushes a fresh slot `[none, some 5]`, leaving slot 0
empty. -/
theorem append_sync_counterexample :
    ((ChildGroups.new []).new_group.1.last_is_dynamic = true) ∧
    ((ChildGroups.new []).new_group.1.append_new_group_sync 5).children
      = [none, some 5] ∧
    ¬(((ChildGroups.new []).new_group.1.append_new_group_sync 5).children.get? 0
        = some (some 5)) := by
  decide

/-- Claim C4 (amended): `append_new_group_sync` always appends the child
to the live parent and bumps the group count; when the previous slot was
still dynamic it pushes a NEW slot holding the child (the previous slot
is left untouched), otherwise it creates no slot-vector entry at all;
and it marks the last group as no longer dynamic.  Called three times on
a fresh `ChildGroups` (whose `last_is_dynamic` starts `false`), it
creates three groups, no slot-vector entries, and leaves the document
order of the children equal to the call order. -/
theorem append_new_group_sync_spec (g : ChildGroups) (c : Elt) :
    (g.append_new_group_sync c).parent = g.parent ++ [c] ∧
    (g.append_new_group_sync c).group_count = g.group_count + 1 ∧
    (g.append_new_group_sync c).last_is_dynamic = false ∧
    (g.append_new_group_sync c).children
      = (if g.last_is_dynamic then g.children ++ [some c] else g.children) ∧
    ((((ChildGroups.new []).append_new_group_sync 1).append_new_group_sync
        2).append_new_group_sync 3).parent = [1, 2, 3] ∧
    ((((ChildGroups.new []).append_new_group_sync 1).append_new_group_sync
        2).append_new_group_sync 3).group_count = 3 ∧
    ((((ChildGroups.new []).append_new_group_sync 1).append_new_group_sync
        2).append_new_group_sync 3).children = [] :=
  ⟨rfl, rfl, rfl, rfl, by decide, by decide, by decide⟩

/-- Claim C10: every index-taking `ChildGroups` operation panics unless
the index is strictly below the slot-vector length (for
`insert_only_child` an in-range call can still panic when the slot is
occupied, so only the out-of-range direction holds); and
`append_new_group_sync` on a non-dynamic last group bumps the group count
without pushing a slot, so the group count can exceed the slot-vector
length and an index below the group count can still panic. -/
theorem childgroups_index_partiality (g : ChildGroups) (i : Nat) (c : Elt) :
    ((ChildGroups.upsert_only_child g i c).isSome ↔ i < g.children.length) ∧
    ((ChildGroups.remove_child g i).isSome ↔ i < g.children.length) ∧
    ((ChildGroups.set_first_child g i c).isSome ↔ i < g.children.length) ∧
    ((ChildGroups.clear_first_child g i).isSome ↔ i < g.children.length) ∧
    ((ChildGroups.get_next_group_elem g i).isSome ↔ i < g.children.length) ∧
    (g.children.length ≤ i → ChildGroups.insert_only_child g i c = none) ∧
    ((ChildGroups.new []).append_new_group_sync 5).group_count = 1 ∧
    ((ChildGroups.new []).append_new_group_sync 5).children.length = 0 ∧
    ChildGroups.upsert_only_child ((ChildGroups.new []).append_new_group_sync 5) 0 7
      = none := by
  have hlt : ∀ o, g.children.get? i = some o → i < g.children.length := by
    intro o h
    by_contra hn
    rw [List.get?_eq_none.mpr (Nat.le_of_not_lt hn)] at h
    exact absurd h (by simp)
  refine ⟨?_, ?_, ?_, ?_, ?_, ?_, by decide, by decide, by decide⟩
  · cases h : g.children.get? i with
    | none =>
      have hle := List.get?_eq_none.mp h
      have h2 : g.children[i]? = none := by simpa using h
      simp only [ChildGroups.upsert_only_child, List.get?_eq_getElem?, h2,
        Option.isSome_none, Bool.false_eq_true, false_iff]
      omega
    | some o => simp [ChildGroups.upsert_only_child, h, hlt o h]
  · cases h : g.children.get? i with
    | none =>
      have hle := List.get?_eq_none.mp h
      have h2 : g.children[i]? = none := by simpa using h
      simp only [ChildGroups.remove_child, List.get?_eq_getElem?, h2,
        Option.isSome_none, Bool.false_eq_true, false_iff]
      omega
    | some o => simp [ChildGroups.remove_child, h, hlt o h]
  · by_cases h : i < g.children.length <;> simp [ChildGroups.set_first_child, h]
  · by_cases h : i < g.children.length <;> simp [ChildGroups.clear_first_child, h]
  · by_cases h : i < g.children.length <;> simp [ChildGroups.get_next_group_elem, h]
  · intro hle
    have h2 : g.children[i]? = none := by
      simpa using List.get?_eq_none.mpr hle
    simp [ChildGroups.insert_only_child, ChildGroups.upsert_only_child, h2]

theorem childgroups_index_partiality_witness :
    ((ChildGroups.upsert_only_child (ChildGroups.new []) 0 7).isSome
        ↔ 0 < (ChildGroups.new []).children.length) ∧
    ((ChildGroups.new []).children.length ≤ 0 →
      ChildGroups.insert_only_child (ChildGroups.new []) 0 7 = none) :=
  ⟨(childgroups_index_partiality (ChildGroups.new []) 0 7).1,
    (childgroups_index_partiality (ChildGroups.new []) 0 7).2.2.2.2.2.1⟩

/-! ### Claims about mounting and node identity -/

/-- Claim C7: a missing mount-point id makes the plain mount path panic
with a message naming the missing id, while head-mounting with no
document head returns the typed failure `HeadNotFound` without
panicking. -/
theorem mount_failure_modes (doc : Doc) (id : String)
    (mounted : List (String × Elt)) (v : Elt)
    (hid : lookupA doc.byId id = none) (hhead : doc.headElem = none) :
    mount_point doc id = Except.error ("DOM node id = '" ++ id ++ "' must exist") ∧
    wetMountInHead doc mounted id v
      = Except.ok (Except.error HeadNotFound.headNotFound) := by
  constructor
  · unfold mount_point
    rw [hid]
  · unfold wetMountInHead
    rw [hhead]

theorem mount_failure_modes_witness :
    mount_point ⟨[], none⟩ "app"
      = Except.error ("DOM node id = '" ++ "app" ++ "' must exist") ∧
    wetMountInHead ⟨[], none⟩ [] "app" 0
      = Except.ok (Except.error HeadNotFound.headNotFound) :=
  mount_failure_modes ⟨[], none⟩ "app" [] 0 rfl rfl

/-- Claim C8: inserting head-mounted content under an id that is already
mounted is a fatal assertion failure (a panic carrying the duplicate-id
message), on both the Wet and the Hydro paths. -/
theorem head_duplicate_id_panics (mounted : List (String × Elt)) (id : String)
    (v : Elt) (h : (lookupA mounted id).isSome = true) :
    insert_mounted_in_head_wet mounted id v
      = Except.error ("Attempt to insert duplicate id (" ++ id ++ ") into head") ∧
    insert_mounted_in_head_hydro mounted id v
      = Except.error ("Attempt to insert duplicate id (" ++ id ++ ") into head") := by
  constructor
  · simp [insert_mounted_in_head_wet, h]
  · simp [insert_mounted_in_head_hydro, h]

theorem head_duplicate_id_panics_witness :
    insert_mounted_in_head_wet [("a", 1)] "a" 2
      = Except.error ("Attempt to insert duplicate id (" ++ "a" ++ ") into head") ∧
    insert_mounted_in_head_hydro [("a", 1)] "a" 2
      = Except.error ("Attempt to insert duplicate id (" ++ "a" ++ ") into head") :=
  head_duplicate_id_panics [("a", 1)] "a" 2 rfl

/-- Claim C9: node identity is pointer equality on the owned
representation: a clone of a handle is the same node as the handle; two
handles are the same node exactly when they reference the same underlying
representation (same allocation, same variant); an element handle and a
text handle are never the same node; and structurally equal but
separately constructed nodes are not the same node. -/
theorem is_same_identity :
    (∀ n : DomNodeData, (DomNodeData.clone n).is_same n = true) ∧
    (∀ a b : DomNodeData,
      a.is_same b = true ↔ (a.rcId = b.rcId ∧ a.isElement = b.isElement)) ∧
    (∀ (r0 : Nat) (t : String) (r1 : Nat) (s : String),
      (DomNodeData.element r0 t).is_same (DomNodeData.text r1 s) = false) ∧
    (∀ (al : Allocator) (tag : String),
      DomNodeData.structurallyEqual (newElement al tag).1
        (newElement (newElement al tag).2 tag).1 = true ∧
      (newElement al tag).1.is_same (newElement (newElement al tag).2 tag).1
        = false) := by
  refine ⟨?_, ?_, ?_, ?_⟩
  · intro n
    cases n <;> simp [DomNodeData.clone, DomNodeData.is_same]
  · intro a b
    cases a <;> cases b <;>
      simp [DomNodeData.is_same, DomNodeData.rcId, DomNodeData.isElement]
  · intro r0 t r1 s
    rfl
  · intro al tag
    refine ⟨by simp [newElement, DomNodeData.structurallyEqual], ?_⟩
    simp [newElement, DomNodeData.is_same]

theorem memo_non_carryover_amended_witness :
    lookupA (Memo.runCycle (Memo.runCycle (⟨[], []⟩ : MemoData Nat Nat)
      [(1, 10)]) [(2, 20)]).current 5 = none ∧
    lookupA (Memo.runCycle (Memo.runCycle (⟨[], []⟩ : MemoData Nat Nat)
      [(1, 10)]) [(2, 20)]).next 5 = none :=
  memo_non_carryover_amended ⟨[], []⟩ [(1, 10)] [(2, 20)] 5 rfl (by decide)
    (by decide) (by decide)

end Silkenweb
